import Mathlib

/-!
Verification development for `num-rational-parse` (`src/lib.rs`).

The crate parses a string into an exact rational pair over a bounded signed
integer type `T`, via the anchored regex `RATIONAL_FORMAT` (lib.rs:120-136)
followed by an overflow-checked assembler (`from_str_flex`, lib.rs:143-272).

Shallow embedding choices:
* strings are `List Char`;
* the bounded signed integer type `T` is `Int` together with explicit bounds
  `lo ≤ x ≤ hi` (Rust's `i8` is `lo = -128, hi = 127`, `i32` is
  `lo = -2147483648, hi = 2147483647`); checked operations return `Option Int`;
* the regex engine's Perl classes are Unicode-aware by default: `\d` is the
  Unicode `Nd` category and `\s` the White_Space property, embedded below as
  explicit code-point range tables (Unicode 14.0);
* the regex match with its five named capture groups is embedded as a
  deterministic scanner `ratCaptures`.  The pattern is anchored (`\A ... \z`)
  and its components have pairwise disjoint first-character sets, so the
  leftmost-first backtracking search of the `regex` crate is equivalent to the
  greedy deterministic scan implemented here: after the `num` token the tail
  can only begin with whitespace, `/`, `.`, `e`/`E` or end of input — never a
  digit or `_` — so shortening a greedy token can never turn a failing match
  into a successful one, and alternatives are tried in the pattern's order
  (fraction branch before the decimal/exponent branch).
-/

/-- Code-point ranges of the Unicode `Nd` (decimal digit) category: this is
what the `\d` class of the (Unicode-aware) `regex` crate matches in
`RATIONAL_FORMAT`.  Note it contains far more than ASCII `0`-`9`: e.g. the
fullwidth digits U+FF10–U+FF19 (range `(65296, 65305)`), but not the
superscripts (U+00B9 etc.) nor fraction glyphs (U+00BC etc.), which are in
category `No`. -/
def ndRangeList : List (Nat × Nat) :=
  [(48, 57), (1632, 1641), (1776, 1785), (1984, 1993), (2406, 2415),
   (2534, 2543), (2662, 2671), (2790, 2799), (2918, 2927), (3046, 3055),
   (3174, 3183), (3302, 3311), (3430, 3439), (3558, 3567), (3664, 3673),
   (3792, 3801), (3872, 3881), (4160, 4169), (4240, 4249), (6112, 6121),
   (6160, 6169), (6470, 6479), (6608, 6617), (6784, 6793), (6800, 6809),
   (6992, 7001), (7088, 7097), (7232, 7241), (7248, 7257), (42528, 42537),
   (43216, 43225), (43264, 43273), (43472, 43481), (43504, 43513),
   (43600, 43609), (44016, 44025), (65296, 65305), (66720, 66729),
   (68912, 68921), (69734, 69743), (69872, 69881), (69942, 69951),
   (70096, 70105), (70384, 70393), (70736, 70745), (70864, 70873),
   (71248, 71257), (71360, 71369), (71472, 71481), (71904, 71913),
   (72016, 72025), (72784, 72793), (73040, 73049), (73120, 73129),
   (92768, 92777), (92864, 92873), (93008, 93017), (120782, 120831),
   (123200, 123209), (123632, 123641), (125264, 125273), (130032, 130041)]

/-- Membership of a code point in the `Nd` table. -/
def ndContains (n : Nat) : Bool :=
  ndRangeList.any (fun p => p.1 ≤ n && n ≤ p.2)

/-- The `\d` character class of `RATIONAL_FORMAT` (Unicode `Nd`). -/
def isNd (c : Char) : Bool := ndContains c.toNat

/-- Code points with the Unicode White_Space property: the `\s` class of the
`regex` crate. -/
def wsCodeList : List Nat :=
  [9, 10, 11, 12, 13, 32, 133, 160, 5760, 8192, 8193, 8194, 8195, 8196, 8197,
   8198, 8199, 8200, 8201, 8202, 8232, 8233, 8239, 8287, 12288]

/-- Membership of a code point in the White_Space table. -/
def wsContains (n : Nat) : Bool := wsCodeList.any (fun k => n == k)

/-- The `\s` character class of `RATIONAL_FORMAT`. -/
def isWs (c : Char) : Bool := wsContains c.toNat

/-- ASCII decimal digit `0`-`9`: the only digits accepted by Rust's
`<T as FromStr>::from_str` (i.e. `from_str_radix(s, 10)`). -/
def isAsciiDigit (c : Char) : Bool := 48 ≤ c.toNat && c.toNat ≤ 57

/-- Numeric value of a big-endian ASCII digit string, as accumulated by
Rust's `from_str_radix`. -/
def digitsToNat (ds : List Char) : Nat :=
  ds.foldl (fun a c => 10 * a + (c.toNat - 48)) 0

/-- Rust `str::parse::<T>()` for a bounded signed integer type with range
`[lo, hi]` (core's `from_str_radix` in base 10): an optional single `+`/`-`
sign, then one or more ASCII digits; any other character (including `_` and
non-ASCII digits) or an out-of-range value yields `None`.  The optional
sign is split off by `rustSignSplit` (the flag is `true` for `-`). -/
def rustSignSplit (s : List Char) : Bool × List Char :=
  match s with
  | c :: t =>
    if c = '+' then (false, t)
    else if c = '-' then (true, t)
    else (false, s)
  | [] => (false, s)

/-- The digit-run conversion and range check of `from_str_radix`. -/
def rustFromStr (lo hi : Int) (s : List Char) : Option Int :=
  let p := rustSignSplit s
  if p.2.isEmpty || !p.2.all isAsciiDigit then none
  else
    let v : Int := if p.1 then -(digitsToNat p.2 : Int) else (digitsToNat p.2 : Int)
    if lo ≤ v && v ≤ hi then some v else none

/-- Rust `str::parse::<i32>()` (used for the exponent, lib.rs:242). -/
def rustFromStrI32 (s : List Char) : Option Int :=
  rustFromStr (-2147483648) 2147483647 s

/-- Is the head of the list an `Nd` digit? -/
def headIsDigit (l : List Char) : Bool :=
  match l with
  | c :: _ => isNd c
  | [] => false

/-- Greedy match of `(_\d+)*` (the digit-group continuation of the regex's
underscore tokens), returning the consumed prefix and the remainder.  The
fuel argument bounds the number of groups; each recursive step consumes at
least two characters, so `l.length` fuel is always sufficient. -/
def takeGroupsF : Nat → List Char → List Char × List Char
  | 0, l => ([], l)
  | fuel + 1, l =>
    match l with
    | c :: rest =>
      if c = '_' && headIsDigit rest then
        let d := rest.takeWhile isNd
        let r := rest.dropWhile isNd
        let p := takeGroupsF fuel r
        ('_' :: (d ++ p.1), p.2)
      else ([], l)
    | [] => ([], l)

/-- Greedy match of `\d+(_\d+)*` (also covering the `\d*` alternative when
the result is empty): the maximal digit-with-underscore-groups token prefix,
and the remainder.  This is the shape of the regex's `num`, `denom`,
`decimal` and exponent-digit tokens. -/
def takeTok (l : List Char) : List Char × List Char :=
  let d := l.takeWhile isNd
  let r := l.dropWhile isNd
  if d.isEmpty then ([], l)
  else
    let p := takeGroupsF r.length r
    (d ++ p.1, p.2)

/-- The five named capture groups of `RATIONAL_FORMAT`, exactly as
`from_str_flex` reads them (lib.rs:148-152): `sign` and `num` always
participate (possibly as the empty string); `denom`, `decimal` and `exp` are
optional. -/
structure RatCaptures where
  sign : List Char
  num : List Char
  denom : Option (List Char)
  decimal : Option (List Char)
  exp : Option (List Char)
deriving Repr, DecidableEq

/-- The optional sign `[-+]?` (greedy; the following component can never
consume a sign character, so the regex commits to it when present): the
captured sign and the remainder. -/
def signSplit (l : List Char) : List Char × List Char :=
  match l with
  | c :: t =>
    if c = '+' then (['+'], t)
    else if c = '-' then (['-'], t)
    else ([], l)
  | [] => ([], l)

/-- The fraction branch `(?:\s*/\s*(?P<denom>\d+(_\d+)*))?` followed by the
trailing `\s*\z`, with the group present: returns the `denom` capture if the
whole remainder is consumed. -/
def matchA (r : List Char) : Option (List Char) :=
  match r.dropWhile isWs with
  | c :: r2 =>
    if c = '/' then
      let r3 := r2.dropWhile isWs
      let p := takeTok r3
      if p.1.isEmpty then none
      else if p.2.all isWs then some p.1 else none
    else none
  | [] => none

/-- The exponent group `(?:E(?P<exp>[-+]?\d+(_\d+)*))?` (the `E` is
case-insensitive) followed by the trailing `\s*\z`, applied to the remainder
`r1`; `dec` is the already-computed `decimal` capture, passed through. -/
def matchExpTail (r1 : List Char) (dec : Option (List Char)) :
    Option (Option (List Char) × Option (List Char)) :=
  match r1 with
  | c :: t =>
    if c = 'e' || c = 'E' then
      let sg := signSplit t
      let p := takeTok sg.2
      if p.1.isEmpty then none
      else if p.2.all isWs then some (dec, some (sg.1 ++ p.1)) else none
    else if (c :: t).all isWs then some (dec, none) else none
  | [] => some (dec, none)

/-- The decimal/exponent branch
`(?:\.(?P<decimal>\d*|\d+(_\d+)*))?(?:E(?P<exp>[-+]?\d+(_\d+)*))?` followed
by the trailing `\s*\z`: returns the `decimal` and `exp` captures if the
whole remainder is consumed. -/
def matchB (r : List Char) : Option (Option (List Char) × Option (List Char)) :=
  match r with
  | c :: t =>
    if c = '.' then
      let p := takeTok t
      matchExpTail p.2 (some p.1)
    else matchExpTail (c :: t) none
  | [] => matchExpTail [] none

/-- The part of `RATIONAL_FORMAT` after the `num` token:
`(?: fraction-branch | decimal/exponent-branch ) \s*\z`, with the branches
tried in the pattern's (leftmost-first) order: fraction group present, then
fraction group absent (remainder must be trailing whitespace), then the
decimal/exponent branch. -/
def parseTail (r : List Char) :
    Option (Option (List Char) × Option (List Char) × Option (List Char)) :=
  match matchA r with
  | some d => some (some d, none, none)
  | none =>
    if r.all isWs then some (none, none, none)
    else
      match matchB r with
      | some q => some (none, q.1, q.2)
      | none => none

/-- `RATIONAL_FORMAT.captures(input)` (lib.rs:144): leading `\s*`, the
optional `sign`, the `num` token (`\d*|\d+(_\d+)*`), then the tail.  Returns
the captures on a match, `none` on a mismatch. -/
def ratCaptures (input : List Char) : Option RatCaptures :=
  let sg := signSplit (input.dropWhile isWs)
  let p := takeTok sg.2
  match parseTail p.2 with
  | some q => some ⟨sg.1, p.1, q.1, q.2.1, q.2.2⟩
  | none => none

/-- The three error kinds of `RatioErrorKind` (lib.rs:51-66). -/
inductive RatioErrorKind where
  | ParseError
  | ZeroDenominator
  | Overflow
deriving Repr, DecidableEq

/-- The error type `ParseRatioError` (lib.rs:31-33). -/
structure ParseRatioError where
  kind : RatioErrorKind
deriving Repr, DecidableEq

/-- Rust `checked_mul` on a bounded signed type with range `[lo, hi]`. -/
def cmul (lo hi x y : Int) : Option Int :=
  if lo ≤ x * y && x * y ≤ hi then some (x * y) else none

/-- Rust `checked_add` on a bounded signed type with range `[lo, hi]`. -/
def cadd (lo hi x y : Int) : Option Int :=
  if lo ≤ x + y && x + y ≤ hi then some (x + y) else none

/-- Second loop of `num_traits::checked_pow` (exponentiation by squaring
with an accumulator; entered with an odd exponent `e ≥ 3`).  The fuel bounds
the number of halvings; `e` fuel is always sufficient. -/
def powPhase2 (lo hi : Int) : Nat → Int → Int → Nat → Option Int
  | 0, _, _, _ => none
  | fuel + 1, acc, b, e =>
    if e ≤ 1 then some acc
    else
      match cmul lo hi b b with
      | none => none
      | some b2 =>
        let e2 := e / 2
        match (if e2 % 2 = 1 then cmul lo hi acc b2 else some acc) with
        | none => none
        | some acc2 => powPhase2 lo hi fuel acc2 b2 e2

/-- First loop of `num_traits::checked_pow`: square the base while the
exponent is even, return it at exponent 1, otherwise enter the second loop
with the accumulator initialised to the base. -/
def powPhase1 (lo hi : Int) : Nat → Int → Nat → Option Int
  | 0, _, _ => none
  | fuel + 1, b, e =>
    if e % 2 = 0 then
      match cmul lo hi b b with
      | none => none
      | some b2 => powPhase1 lo hi fuel b2 (e / 2)
    else if e = 1 then some b
    else powPhase2 lo hi fuel b b e

/-- `num_traits::checked_pow(base, exp)` over the bounded type `[lo, hi]`
(used for the power-of-ten scales, lib.rs:184-188): `Some(one)` at exponent
0, otherwise overflow-checked exponentiation by squaring. -/
def checkedPow (lo hi : Int) (b : Int) (e : Nat) : Option Int :=
  if e = 0 then some 1 else powPhase1 lo hi (e + 1) b e

/-- The `parse_val` closure (lib.rs:164-178): the empty string is `0`;
otherwise strip underscores if present and convert via `T::from_str`,
mapping a conversion failure to `Overflow`. -/
def parse_val (lo hi : Int) (s : List Char) : Except ParseRatioError Int :=
  if s.isEmpty then .ok 0
  else if s.contains '_' then
    match rustFromStr lo hi (s.filter (fun c => c != '_')) with
    | none => .error ⟨.Overflow⟩
    | some v => .ok v
  else
    match rustFromStr lo hi s with
    | none => .error ⟨.Overflow⟩
    | some v => .ok v

/-- Rust `str::trim_end_matches('0')`: drop all trailing `'0'` characters
(lib.rs:200). -/
def dropTrailingZeros (l : List Char) : List Char :=
  (l.reverse.dropWhile (fun c => c == '0')).reverse

/-- Does the optional `decimal` capture hold at least one digit
(`decimal_str.is_some_and(|s| !s.is_empty())`, lib.rs:156)? -/
def decimalHasDigits (dec : Option (List Char)) : Bool :=
  match dec with
  | some s => !s.isEmpty
  | none => false

/-- The `dec_final` local of lib.rs:200-207: the fractional digits with
trailing zeros trimmed and (if any remain) underscores stripped. -/
def decFinalOf (d : List Char) : List Char :=
  let decTrimmed := dropTrailingZeros d
  if decTrimmed.contains '_' then decTrimmed.filter (fun c => c != '_')
  else decTrimmed

/-- The fractional-part step of case B (lib.rs:196-233): starting from
`denominator = 1`, if a `decimal` capture is present, trim its trailing
zeros, strip underscores, compute the power-of-ten scale from the remaining
length, convert the remaining digits, and fold both into the numerator and
denominator with checked arithmetic. -/
def decimalPart (lo hi : Int) (numerator : Int) (dec : Option (List Char)) :
    Except ParseRatioError (Int × Int) :=
  match dec with
  | none => .ok (numerator, 1)
  | some d =>
    match checkedPow lo hi 10 (decFinalOf d).length with
    | none => .error ⟨.Overflow⟩
    | some scale =>
      match (if (decFinalOf d).isEmpty then some 0
             else rustFromStr lo hi (decFinalOf d)) with
      | none => .error ⟨.Overflow⟩
      | some decVal =>
        match cmul lo hi numerator scale with
        | none => .error ⟨.Overflow⟩
        | some n1 =>
          match cadd lo hi n1 decVal with
          | none => .error ⟨.Overflow⟩
          | some n2 =>
            match cmul lo hi 1 scale with
            | none => .error ⟨.Overflow⟩
            | some d1 => .ok (n2, d1)

/-- The `exp_final` local of lib.rs:235-241: the exponent token with
underscores stripped when present. -/
def expFinalOf (es : List Char) : List Char :=
  if es.contains '_' then es.filter (fun c => c != '_') else es

/-- The exponent step of case B (lib.rs:234-258): strip underscores from the
`exp` capture if present, parse it as an `i32` (a parse failure is a
`ParseError`), compute the power-of-ten scale of its absolute value, and
multiply it into the numerator (exponent `≥ 0`) or the denominator
(exponent `< 0`), checked. -/
def exponentPart (lo hi : Int) (numerator denominator : Int)
    (ex : Option (List Char)) : Except ParseRatioError (Int × Int) :=
  match ex with
  | none => .ok (numerator, denominator)
  | some es =>
    match rustFromStrI32 (expFinalOf es) with
    | none => .error ⟨.ParseError⟩
    | some expVal =>
      match checkedPow lo hi 10 expVal.natAbs with
      | none => .error ⟨.Overflow⟩
      | some scale =>
        if 0 ≤ expVal then
          match cmul lo hi numerator scale with
          | none => .error ⟨.Overflow⟩
          | some n => .ok (n, denominator)
        else
          match cmul lo hi denominator scale with
          | none => .error ⟨.Overflow⟩
          | some dd => .ok (numerator, dd)

/-- The final sign application and zero-denominator check (lib.rs:261-271):
negate the numerator if the sign capture is `-`, reject a zero denominator,
otherwise return the assembled pair (which the caller hands to the external
`Ratio::new` constructor — out of scope here, per the collaborator
contract). -/
def signAndCheck (sign : List Char) (numerator denominator : Int) :
    Except ParseRatioError (Int × Int) :=
  let n := if sign = ['-'] then -numerator else numerator
  if denominator = 0 then .error ⟨.ZeroDenominator⟩
  else .ok (n, denominator)

/-- `Ratio::<T>::from_str_flex` (lib.rs:143-272) over the bounded signed
integer range `[lo, hi]`, returning the assembled (numerator, denominator)
pair handed to the rational-value constructor: regex match; the
integer-or-fraction-part-present guard; `T::from_u8(10)` (representable iff
`lo ≤ 10 ∧ 10 ≤ hi`, else `ParseError`); numerator conversion; then either
the explicit-fraction case (denominator conversion) or the decimal/exponent
case; then sign application and the zero-denominator check. -/
def from_str_flex (lo hi : Int) (input : List Char) :
    Except ParseRatioError (Int × Int) :=
  match ratCaptures input with
  | none => .error ⟨.ParseError⟩
  | some cap =>
    if cap.num.isEmpty && !decimalHasDigits cap.decimal then .error ⟨.ParseError⟩
    else if !(decide (lo ≤ 10) && decide ((10 : Int) ≤ hi)) then .error ⟨.ParseError⟩
    else
      match parse_val lo hi cap.num with
      | .error e => .error e
      | .ok numerator0 =>
        match cap.denom with
        | some dstr =>
          match parse_val lo hi dstr with
          | .error e => .error e
          | .ok denom0 => signAndCheck cap.sign numerator0 denom0
        | none =>
          match decimalPart lo hi numerator0 cap.decimal with
          | .error e => .error e
          | .ok p1 =>
            match exponentPart lo hi p1.1 p1.2 cap.exp with
            | .error e => .error e
            | .ok p2 => signAndCheck cap.sign p2.1 p2.2

/-- `i8` range. -/
def lo8 : Int := -128
/-- `i8` range. -/
def hi8 : Int := 127
/-- `i32` range. -/
def lo32 : Int := -2147483648
/-- `i32` range. -/
def hi32 : Int := 2147483647

/-! ### Character-class facts -/

theorem isAsciiDigit_toNat {c : Char} (h : isAsciiDigit c = true) :
    48 ≤ c.toNat ∧ c.toNat ≤ 57 := by
  simpa [isAsciiDigit, Bool.and_eq_true, decide_eq_true_eq] using h

theorem isWs_toNat {c : Char} (h : isWs c = true) :
    c.toNat = 9 ∨ c.toNat = 10 ∨ c.toNat = 11 ∨ c.toNat = 12 ∨ c.toNat = 13 ∨
    c.toNat = 32 ∨ c.toNat = 133 ∨ c.toNat = 160 ∨ c.toNat = 5760 ∨
    c.toNat = 8192 ∨ c.toNat = 8193 ∨ c.toNat = 8194 ∨ c.toNat = 8195 ∨
    c.toNat = 8196 ∨ c.toNat = 8197 ∨ c.toNat = 8198 ∨ c.toNat = 8199 ∨
    c.toNat = 8200 ∨ c.toNat = 8201 ∨ c.toNat = 8202 ∨ c.toNat = 8232 ∨
    c.toNat = 8233 ∨ c.toNat = 8239 ∨ c.toNat = 8287 ∨ c.toNat = 12288 := by
  simpa [isWs, wsContains, wsCodeList, List.any_cons, List.any_nil,
    Bool.or_eq_true, beq_iff_eq] using h

theorem isNd_of_ascii {c : Char} (h : isAsciiDigit c = true) : isNd c = true := by
  obtain ⟨h1, h2⟩ := isAsciiDigit_toNat h
  simp only [isNd, ndContains, ndRangeList, List.any_cons, List.any_nil,
    Bool.or_eq_true, Bool.and_eq_true, decide_eq_true_eq, Bool.false_eq_true, or_false]
  omega

theorem not_isWs_of_ascii {c : Char} (h : isAsciiDigit c = true) : isWs c = false := by
  cases hw : isWs c with
  | false => rfl
  | true =>
    have h1 := isWs_toNat hw
    have h2 := isAsciiDigit_toNat h
    omega

theorem not_isNd_of_isWs {c : Char} (h : isWs c = true) : isNd c = false := by
  have h1 := isWs_toNat h
  cases hn : isNd c with
  | false => rfl
  | true =>
    simp only [isNd, ndContains, ndRangeList, List.any_cons, List.any_nil,
      Bool.or_eq_true, Bool.and_eq_true, decide_eq_true_eq, Bool.false_eq_true,
      or_false] at hn
    exfalso
    omega

theorem ascii_ne_chars {c : Char} (h : isAsciiDigit c = true) :
    c ≠ '+' ∧ c ≠ '-' ∧ c ≠ '_' ∧ c ≠ '/' ∧ c ≠ '.' ∧ c ≠ 'e' ∧ c ≠ 'E' := by
  refine ⟨?_, ?_, ?_, ?_, ?_, ?_, ?_⟩ <;>
    (intro heq; subst heq; exact absurd h (by decide))

theorem ws_ne_chars {c : Char} (h : isWs c = true) :
    c ≠ '+' ∧ c ≠ '-' ∧ c ≠ '_' ∧ c ≠ '/' ∧ c ≠ '.' ∧ c ≠ 'e' ∧ c ≠ 'E' := by
  refine ⟨?_, ?_, ?_, ?_, ?_, ?_, ?_⟩ <;>
    (intro heq; subst heq; exact absurd h (by decide))

theorem isNd_ne_chars {c : Char} (h : isNd c = true) :
    c ≠ '+' ∧ c ≠ '-' ∧ c ≠ '_' ∧ c ≠ '/' ∧ c ≠ '.' := by
  refine ⟨?_, ?_, ?_, ?_, ?_⟩ <;>
    (intro heq; subst heq; exact absurd h (by decide))

/-! ### List helpers -/

theorem takeWhile_all_eq {p : Char → Bool} {l : List Char} (h : l.all p = true) :
    l.takeWhile p = l :=
  List.takeWhile_eq_self_iff.mpr (by simpa [List.all_eq_true] using h)

theorem dropWhile_all_nil {p : Char → Bool} {l : List Char} (h : l.all p = true) :
    l.dropWhile p = [] :=
  List.dropWhile_eq_nil_iff.mpr (by simpa [List.all_eq_true] using h)

theorem dropWhile_all_append {p : Char → Bool} {w : List Char} (l : List Char)
    (hw : w.all p = true) : (w ++ l).dropWhile p = l.dropWhile p := by
  induction w with
  | nil => simp
  | cons c t ih =>
    simp only [List.all_cons, Bool.and_eq_true] at hw
    simp [List.dropWhile_cons, hw.1, ih hw.2]

theorem dropWhile_append_cons {p : Char → Bool} {l : List Char} (w : List Char)
    {c : Char} {t : List Char} (h : l.dropWhile p = c :: t) :
    (l ++ w).dropWhile p = c :: (t ++ w) := by
  induction l with
  | nil => simp at h
  | cons a l ih =>
    cases ha : p a with
    | true =>
      rw [List.dropWhile_cons, if_pos ha] at h
      rw [List.cons_append, List.dropWhile_cons, if_pos ha, ih h]
    | false =>
      rw [List.dropWhile_cons, if_neg (by simp [ha])] at h
      obtain ⟨rfl, rfl⟩ : a = c ∧ l = t := by
        simpa using h
      rw [List.cons_append, List.dropWhile_cons, if_neg (by simp [ha])]

/-! ### Token lemmas -/

theorem takeGroupsF_nil (f : Nat) : takeGroupsF f [] = ([], []) := by
  cases f <;> rfl

theorem all_imp {p q : Char → Bool} {l : List Char} (h : l.all p = true)
    (hpq : ∀ c, p c = true → q c = true) : l.all q = true := by
  simp only [List.all_eq_true] at h ⊢
  exact fun c hc => hpq c (h c hc)

theorem takeTok_digits {ds : List Char} (hne : ds ≠ [])
    (hall : ds.all isNd = true) : takeTok ds = (ds, []) := by
  have h1 : ds.takeWhile isNd = ds := takeWhile_all_eq hall
  have h2 : ds.dropWhile isNd = [] := dropWhile_all_nil hall
  have h3 : ds.isEmpty = false := by
    cases ds with
    | nil => exact absurd rfl hne
    | cons c t => rfl
  simp [takeTok, h1, h2, h3, takeGroupsF_nil]

theorem takeTok_not_digit {l : List Char} (h : headIsDigit l = false) :
    takeTok l = ([], l) := by
  cases l with
  | nil => rfl
  | cons c t =>
    have hc : isNd c = false := h
    have h1 : (c :: t).takeWhile isNd = [] := by
      rw [List.takeWhile_cons, if_neg (by simp [hc])]
    simp [takeTok, h1]

theorem takeTok_head {l : List Char} :
    (takeTok l).1 = [] ∨ headIsDigit (takeTok l).1 = true := by
  by_cases he : (l.takeWhile isNd).isEmpty = true
  · left; simp [takeTok, he]
  · right
    have hf : (l.takeWhile isNd).isEmpty = false := by
      simpa [Bool.not_eq_true] using he
    cases htw : l.takeWhile isNd with
    | nil => rw [htw] at hf; simp at hf
    | cons c t =>
      have hc : isNd c = true := by
        refine List.mem_takeWhile_imp (p := isNd) (l := l) ?_
        rw [htw]; exact List.mem_cons_self c t
      simp only [takeTok, htw, hf]
      simpa [headIsDigit] using hc

/-! ### Scanner evaluation on sign-and-ASCII-digits inputs -/

theorem parseTail_nil : parseTail [] = some (none, none, none) := rfl

theorem ratCaptures_eval {r0 : List Char} {input : List Char}
    (h0 : input.dropWhile isWs = r0) :
    ratCaptures input =
      (match parseTail (takeTok (signSplit r0).2).2 with
       | some q => some ⟨(signSplit r0).1, (takeTok (signSplit r0).2).1, q.1, q.2.1, q.2.2⟩
       | none => none) := by
  rw [ratCaptures, h0]

theorem signSplit_digits {c : Char} {t : List Char} (hc : isAsciiDigit c = true) :
    signSplit (c :: t) = ([], c :: t) := by
  obtain ⟨h1, h2, _⟩ := ascii_ne_chars hc
  rw [signSplit, if_neg h1, if_neg h2]

theorem ratCaptures_digits {ds : List Char} (hne : ds ≠ [])
    (hall : ds.all isAsciiDigit = true) :
    ratCaptures ds = some ⟨[], ds, none, none, none⟩ := by
  obtain ⟨c, t, rfl⟩ := List.exists_cons_of_ne_nil hne
  have hc : isAsciiDigit c = true := by
    simp only [List.all_cons, Bool.and_eq_true] at hall
    exact hall.1
  have h0 : (c :: t).dropWhile isWs = c :: t := by
    rw [List.dropWhile_cons, if_neg (by simp [not_isWs_of_ascii hc])]
  rw [ratCaptures_eval h0, signSplit_digits hc,
    takeTok_digits hne (all_imp hall fun c h => isNd_of_ascii h)]
  rfl

theorem ratCaptures_neg_digits {ds : List Char} (hne : ds ≠ [])
    (hall : ds.all isAsciiDigit = true) :
    ratCaptures ('-' :: ds) = some ⟨['-'], ds, none, none, none⟩ := by
  have h0 : ('-' :: ds).dropWhile isWs = '-' :: ds := by
    rw [List.dropWhile_cons, if_neg (by decide)]
  have hs : signSplit ('-' :: ds) = (['-'], ds) := by
    rw [signSplit, if_neg (by decide), if_pos rfl]
  rw [ratCaptures_eval h0, hs,
    takeTok_digits hne (all_imp hall fun c h => isNd_of_ascii h)]
  rfl

theorem ratCaptures_pos_digits {ds : List Char} (hne : ds ≠ [])
    (hall : ds.all isAsciiDigit = true) :
    ratCaptures ('+' :: ds) = some ⟨['+'], ds, none, none, none⟩ := by
  have h0 : ('+' :: ds).dropWhile isWs = '+' :: ds := by
    rw [List.dropWhile_cons, if_neg (by decide)]
  have hs : signSplit ('+' :: ds) = (['+'], ds) := by
    rw [signSplit, if_pos rfl]
  rw [ratCaptures_eval h0, hs,
    takeTok_digits hne (all_imp hall fun c h => isNd_of_ascii h)]
  rfl

/-! ### parse_val lemmas -/

theorem digits_not_contains {ds : List Char} (hall : ds.all isAsciiDigit = true) :
    ds.contains '_' = false := by
  induction ds with
  | nil => rfl
  | cons c t ih =>
    simp only [List.all_cons, Bool.and_eq_true] at hall
    have hc : ('_' == c) = false := by
      cases hq : ('_' == c) with
      | false => rfl
      | true =>
        have : c = '_' := (eq_of_beq hq).symm
        exact absurd hall.1 (by rw [this]; decide)
    show ('_' == c || t.contains '_') = false
    rw [hc, ih hall.2, Bool.or_self]

theorem rustSignSplit_digit {c : Char} {t : List Char} (hc : isNd c = true) :
    rustSignSplit (c :: t) = (false, c :: t) := by
  obtain ⟨h1, h2, _⟩ := isNd_ne_chars hc
  rw [rustSignSplit, if_neg h1, if_neg h2]

theorem not_mem_underscore {ds : List Char} (hall : ds.all isAsciiDigit = true) :
    '_' ∉ ds := by
  intro hmem
  exact absurd (List.all_eq_true.mp hall _ hmem) (by decide)

theorem rustFromStr_digits {lo hi : Int} {ds : List Char} (hne : ds ≠ [])
    (hall : ds.all isAsciiDigit = true) :
    rustFromStr lo hi ds =
      if lo ≤ (digitsToNat ds : Int) ∧ (digitsToNat ds : Int) ≤ hi
      then some ((digitsToNat ds : Int)) else none := by
  obtain ⟨c, t, rfl⟩ := List.exists_cons_of_ne_nil hne
  have hc : isAsciiDigit c = true := by
    simp only [List.all_cons, Bool.and_eq_true] at hall
    exact hall.1
  have hall2 : (c :: t).all isAsciiDigit = true := by
    simp only [List.all_cons, Bool.and_eq_true] at hall ⊢
    exact hall
  rw [rustFromStr, rustSignSplit_digit (isNd_of_ascii hc)]
  by_cases hb : lo ≤ (digitsToNat (c :: t) : Int) ∧ (digitsToNat (c :: t) : Int) ≤ hi
  · simp [hall2, hb.1, hb.2]
  · rw [if_neg hb]
    simp only [List.isEmpty_cons, hall2, Bool.not_true, Bool.or_false, Bool.false_or]
    rw [if_neg (by simp), if_neg]
    simpa [Bool.and_eq_true, decide_eq_true_eq] using hb

theorem parse_val_digits {lo hi : Int} {ds : List Char} (hne : ds ≠ [])
    (hall : ds.all isAsciiDigit = true) (hlo : lo ≤ 0)
    (hhi : (digitsToNat ds : Int) ≤ hi) :
    parse_val lo hi ds = .ok (digitsToNat ds : Int) := by
  have h3 : ds.isEmpty = false := by
    cases ds with
    | nil => exact absurd rfl hne
    | cons c t => rfl
  have h4 : (0 : Int) ≤ (digitsToNat ds : Int) := Int.natCast_nonneg _
  rw [parse_val, if_neg (by simp [h3]), if_neg (by simp [not_mem_underscore hall]),
    rustFromStr_digits hne hall, if_pos ⟨le_trans hlo h4, hhi⟩]

theorem parse_val_digits_overflow {lo hi : Int} {ds : List Char} (hne : ds ≠ [])
    (hall : ds.all isAsciiDigit = true) (hhi : hi < (digitsToNat ds : Int)) :
    parse_val lo hi ds = .error ⟨.Overflow⟩ := by
  have h3 : ds.isEmpty = false := by
    cases ds with
    | nil => exact absurd rfl hne
    | cons c t => rfl
  rw [parse_val, if_neg (by simp [h3]), if_neg (by simp [not_mem_underscore hall]),
    rustFromStr_digits hne hall, if_neg (by omega)]

theorem parse_val_error {lo hi : Int} {s : List Char} {e : ParseRatioError}
    (h : parse_val lo hi s = .error e) : e = ⟨.Overflow⟩ := by
  rw [parse_val] at h
  split at h
  · exact absurd h (by simp)
  · split at h
    · cases hr : rustFromStr lo hi (s.filter fun c => c != '_') with
      | none => rw [hr] at h; simpa using h.symm
      | some v => rw [hr] at h; exact absurd h (by simp)
    · cases hr : rustFromStr lo hi s with
      | none => rw [hr] at h; simpa using h.symm
      | some v => rw [hr] at h; exact absurd h (by simp)

/-! ### Checked arithmetic lemmas -/

theorem cmul_some {lo hi x y z : Int} (h : cmul lo hi x y = some z) : z = x * y := by
  rw [cmul] at h
  split at h
  · exact (Option.some_inj.mp h).symm
  · exact absurd h (by simp)

theorem cadd_some {lo hi x y z : Int} (h : cadd lo hi x y = some z) : z = x + y := by
  rw [cadd] at h
  split at h
  · exact (Option.some_inj.mp h).symm
  · exact absurd h (by simp)

theorem powPhase2_some {lo hi : Int} :
    ∀ (fuel : Nat) (acc b : Int) (e : Nat) (s : Int),
      powPhase2 lo hi fuel acc b e = some s → s = acc * b ^ (2 * (e / 2)) := by
  intro fuel
  induction fuel with
  | zero => intro acc b e s h; exact absurd h (by simp [powPhase2])
  | succ f ih =>
    intro acc b e s h
    rw [powPhase2] at h
    split at h
    · next he =>
      have he0 : e / 2 = 0 := by omega
      simp only [Option.some_inj] at h
      rw [← h, he0]
      simp
    · next he =>
      cases hb : cmul lo hi b b with
      | none => simp only [hb] at h; exact absurd h (by simp)
      | some b2 =>
        simp only [hb] at h
        have hb2 : b2 = b * b := cmul_some hb
        cases hacc : (if e / 2 % 2 = 1 then cmul lo hi acc b2 else some acc) with
        | none => simp only [hacc] at h; exact absurd h (by simp)
        | some acc2 =>
          simp only [hacc] at h
          have hs := ih acc2 b2 (e / 2) s h
          have hrw : b * b = b ^ 2 := (pow_two b).symm
          by_cases hodd : e / 2 % 2 = 1
          · rw [if_pos hodd] at hacc
            have ha2 : acc2 = acc * (b * b) := hb2 ▸ cmul_some hacc
            have hexp : 2 + 2 * (2 * (e / 2 / 2)) = 2 * (e / 2) := by omega
            rw [hs, ha2, hb2, hrw, ← pow_mul, mul_assoc, ← pow_add, hexp]
          · rw [if_neg hodd] at hacc
            have ha2 : acc2 = acc := (Option.some_inj.mp hacc).symm
            have hexp : 2 * (2 * (e / 2 / 2)) = 2 * (e / 2) := by omega
            rw [hs, ha2, hb2, hrw, ← pow_mul, hexp]

theorem powPhase1_some {lo hi : Int} :
    ∀ (fuel : Nat) (b : Int) (e : Nat) (s : Int), 1 ≤ e →
      powPhase1 lo hi fuel b e = some s → s = b ^ e := by
  intro fuel
  induction fuel with
  | zero => intro b e s _ h; exact absurd h (by simp [powPhase1])
  | succ f ih =>
    intro b e s he h
    rw [powPhase1] at h
    split at h
    · next hev =>
      cases hb : cmul lo hi b b with
      | none => simp only [hb] at h; exact absurd h (by simp)
      | some b2 =>
        simp only [hb] at h
        have hb2 : b2 = b * b := cmul_some hb
        have hs := ih b2 (e / 2) s (by omega) h
        have hrw : b * b = b ^ 2 := (pow_two b).symm
        have hexp : 2 * (e / 2) = e := by omega
        rw [hs, hb2, hrw, ← pow_mul, hexp]
    · split at h
      · next h1 =>
        simp only [Option.some_inj] at h
        rw [← h, h1, pow_one]
      · next hev h1 =>
        have hs := powPhase2_some f b b e s h
        rw [hs]
        have hrw : b * b ^ (2 * (e / 2)) = b ^ (2 * (e / 2) + 1) := (pow_succ' b _).symm
        calc b * b ^ (2 * (e / 2)) = b ^ (2 * (e / 2) + 1) := hrw
          _ = b ^ e := by congr 1; omega

theorem checkedPow_some {lo hi b : Int} {e : Nat} {s : Int}
    (h : checkedPow lo hi b e = some s) : s = b ^ e := by
  rw [checkedPow] at h
  split at h
  · next h0 => simp only [Option.some_inj] at h; rw [← h, h0, pow_zero]
  · next h0 => exact powPhase1_some (e + 1) b e s (by omega) h

/-! ### Step lemmas for the assembler -/

theorem decimalPart_none {lo hi n : Int} : decimalPart lo hi n none = .ok (n, 1) := rfl

theorem decimalPart_error {lo hi n : Int} {dec : Option (List Char)}
    {e : ParseRatioError} (h : decimalPart lo hi n dec = .error e) :
    e = ⟨.Overflow⟩ := by
  cases dec with
  | none => exact absurd h (by simp [decimalPart_none])
  | some d =>
    rw [decimalPart] at h
    cases hp : checkedPow lo hi 10 (decFinalOf d).length with
    | none => simp only [hp] at h; simpa using h.symm
    | some scale =>
      simp only [hp] at h
      cases hv : (if (decFinalOf d).isEmpty then some 0
                  else rustFromStr lo hi (decFinalOf d)) with
      | none => simp only [hv] at h; simpa using h.symm
      | some decVal =>
        simp only [hv] at h
        cases h1 : cmul lo hi n scale with
        | none => simp only [h1] at h; simpa using h.symm
        | some n1 =>
          simp only [h1] at h
          cases h2 : cadd lo hi n1 decVal with
          | none => simp only [h2] at h; simpa using h.symm
          | some n2 =>
            simp only [h2] at h
            cases h3 : cmul lo hi 1 scale with
            | none => simp only [h3] at h; simpa using h.symm
            | some d1 => simp only [h3] at h; exact absurd h (by simp)

theorem decimalPart_ok {lo hi n : Int} {dec : Option (List Char)} {n1 d1 : Int}
    (h : decimalPart lo hi n dec = .ok (n1, d1)) : ∃ k : Nat, d1 = 10 ^ k := by
  cases dec with
  | none =>
    rw [decimalPart_none] at h
    refine ⟨0, ?_⟩
    have := (Except.ok.injEq _ _).mp h
    simpa using (congrArg Prod.snd this).symm
  | some d =>
    rw [decimalPart] at h
    cases hp : checkedPow lo hi 10 (decFinalOf d).length with
    | none => simp only [hp] at h; exact absurd h (by simp)
    | some scale =>
      simp only [hp] at h
      cases hv : (if (decFinalOf d).isEmpty then some 0
                  else rustFromStr lo hi (decFinalOf d)) with
      | none => simp only [hv] at h; exact absurd h (by simp)
      | some decVal =>
        simp only [hv] at h
        cases h1 : cmul lo hi n scale with
        | none => simp only [h1] at h; exact absurd h (by simp)
        | some n1x =>
          simp only [h1] at h
          cases h2 : cadd lo hi n1x decVal with
          | none => simp only [h2] at h; exact absurd h (by simp)
          | some n2 =>
            simp only [h2] at h
            cases h3 : cmul lo hi 1 scale with
            | none => simp only [h3] at h; exact absurd h (by simp)
            | some dd =>
              simp only [h3] at h
              refine ⟨(decFinalOf d).length, ?_⟩
              have hd1 : d1 = dd := by
                have := (Except.ok.injEq _ _).mp h
                simpa using (congrArg Prod.snd this).symm
              rw [hd1, cmul_some h3, one_mul, checkedPow_some hp]

theorem exponentPart_none {lo hi n d : Int} :
    exponentPart lo hi n d none = .ok (n, d) := rfl

theorem exponentPart_error {lo hi n d : Int} {ex : Option (List Char)}
    {e : ParseRatioError} (h : exponentPart lo hi n d ex = .error e) :
    e = ⟨.ParseError⟩ ∨ e = ⟨.Overflow⟩ := by
  cases ex with
  | none => exact absurd h (by simp [exponentPart_none])
  | some es =>
    rw [exponentPart] at h
    cases hev : rustFromStrI32 (expFinalOf es) with
    | none => simp only [hev] at h; left; simpa using h.symm
    | some ev =>
      simp only [hev] at h
      cases hp : checkedPow lo hi 10 ev.natAbs with
      | none => simp only [hp] at h; right; simpa using h.symm
      | some scale =>
        simp only [hp] at h
        split at h
        · cases h1 : cmul lo hi n scale with
          | none => simp only [h1] at h; right; simpa using h.symm
          | some nn => simp only [h1] at h; exact absurd h (by simp)
        · cases h1 : cmul lo hi d scale with
          | none => simp only [h1] at h; right; simpa using h.symm
          | some dd => simp only [h1] at h; exact absurd h (by simp)

theorem exponentPart_ok {lo hi n d : Int} {ex : Option (List Char)} {n2 d2 : Int}
    (h : exponentPart lo hi n d ex = .ok (n2, d2)) : ∃ k : Nat, d2 = d * 10 ^ k := by
  cases ex with
  | none =>
    rw [exponentPart_none] at h
    refine ⟨0, ?_⟩
    have := (Except.ok.injEq _ _).mp h
    have hd : d2 = d := by simpa using (congrArg Prod.snd this).symm
    rw [hd, pow_zero, mul_one]
  | some es =>
    rw [exponentPart] at h
    cases hev : rustFromStrI32 (expFinalOf es) with
    | none => simp only [hev] at h; exact absurd h (by simp)
    | some ev =>
      simp only [hev] at h
      cases hp : checkedPow lo hi 10 ev.natAbs with
      | none => simp only [hp] at h; exact absurd h (by simp)
      | some scale =>
        simp only [hp] at h
        split at h
        · cases h1 : cmul lo hi n scale with
          | none => simp only [h1] at h; exact absurd h (by simp)
          | some nn =>
            simp only [h1] at h
            refine ⟨0, ?_⟩
            have := (Except.ok.injEq _ _).mp h
            have hd : d2 = d := by simpa using (congrArg Prod.snd this).symm
            rw [hd, pow_zero, mul_one]
        · cases h1 : cmul lo hi d scale with
          | none => simp only [h1] at h; exact absurd h (by simp)
          | some dd =>
            simp only [h1] at h
            refine ⟨ev.natAbs, ?_⟩
            have := (Except.ok.injEq _ _).mp h
            have hd : d2 = dd := by simpa using (congrArg Prod.snd this).symm
            rw [hd, cmul_some h1, checkedPow_some hp]

theorem exponentPart_detail {lo hi n d : Int} {es : List Char} {ev n2 d2 : Int}
    (hev : rustFromStrI32 (expFinalOf es) = some ev)
    (h : exponentPart lo hi n d (some es) = .ok (n2, d2)) :
    (0 ≤ ev → n2 = n * 10 ^ ev.natAbs ∧ d2 = d) ∧
    (ev < 0 → n2 = n ∧ d2 = d * 10 ^ ev.natAbs) := by
  rw [exponentPart] at h
  simp only [hev] at h
  cases hp : checkedPow lo hi 10 ev.natAbs with
  | none => simp only [hp] at h; exact absurd h (by simp)
  | some scale =>
    simp only [hp] at h
    have hscale : scale = 10 ^ ev.natAbs := checkedPow_some hp
    split at h
    · next hpos =>
      cases h1 : cmul lo hi n scale with
      | none => simp only [h1] at h; exact absurd h (by simp)
      | some nn =>
        simp only [h1] at h
        have hinj := (Except.ok.injEq _ _).mp h
        have hn : n2 = nn := by simpa using (congrArg Prod.fst hinj).symm
        have hd : d2 = d := by simpa using (congrArg Prod.snd hinj).symm
        refine ⟨fun _ => ⟨?_, hd⟩, fun hneg => absurd hpos (by omega)⟩
        rw [hn, cmul_some h1, hscale]
    · next hpos =>
      cases h1 : cmul lo hi d scale with
      | none => simp only [h1] at h; exact absurd h (by simp)
      | some dd =>
        simp only [h1] at h
        have hinj := (Except.ok.injEq _ _).mp h
        have hn : n2 = n := by simpa using (congrArg Prod.fst hinj).symm
        have hd : d2 = dd := by simpa using (congrArg Prod.snd hinj).symm
        refine ⟨fun hge => absurd hge hpos, fun _ => ⟨hn, ?_⟩⟩
        rw [hd, cmul_some h1, hscale]

/-! ### Whole-parse evaluation helpers -/

theorem from_str_flex_plain {lo hi : Int} {input sgncap ds : List Char} {v : Int}
    (hc : ratCaptures input = some ⟨sgncap, ds, none, none, none⟩)
    (hne : ds ≠ []) (hlo10 : lo ≤ 10) (hhi10 : (10 : Int) ≤ hi)
    (hpv : parse_val lo hi ds = .ok v) :
    from_str_flex lo hi input = .ok (if sgncap = ['-'] then -v else v, 1) := by
  rw [from_str_flex]
  simp only [hc]
  have hg : ds.isEmpty = false := by
    cases ds with
    | nil => exact absurd rfl hne
    | cons c t => rfl
  rw [if_neg (by simp [hg, decimalHasDigits]),
    if_neg (by simp [decide_eq_true hlo10, decide_eq_true hhi10])]
  simp only [hpv]
  simp only [decimalPart_none, exponentPart_none, signAndCheck]
  rw [if_neg one_ne_zero]

theorem from_str_flex_numerator_error {lo hi : Int} {input sgncap ds : List Char}
    {dnm dec ex : Option (List Char)} {e : ParseRatioError}
    (hc : ratCaptures input = some ⟨sgncap, ds, dnm, dec, ex⟩)
    (hguard : (ds.isEmpty && !decimalHasDigits dec) = false)
    (hlo10 : lo ≤ 10) (hhi10 : (10 : Int) ≤ hi)
    (hpv : parse_val lo hi ds = .error e) :
    from_str_flex lo hi input = .error e := by
  rw [from_str_flex]
  simp only [hc]
  rw [if_neg (by simp [hguard]),
    if_neg (by simp [decide_eq_true hlo10, decide_eq_true hhi10])]
  simp only [hpv]

/-! ### Claim theorems -/

/-- Claim C2: for every decimal integer string (optional sign, ASCII digits,
no underscores) whose magnitude fits within the bounded signed range
`[lo, hi]` (`lo ≤ 0` and `10 ≤ hi`, as for every Rust signed integer type),
`from_str_flex` succeeds and yields denominator 1 and numerator equal to the
integer value of the string. -/
theorem c2_integer_roundtrip (lo hi : Int) (sgn ds : List Char)
    (hsgn : sgn = [] ∨ sgn = ['+'] ∨ sgn = ['-'])
    (hne : ds ≠ []) (hds : ds.all isAsciiDigit = true)
    (hlo : lo ≤ 0) (hhi10 : (10 : Int) ≤ hi)
    (hmag : (digitsToNat ds : Int) ≤ hi) :
    from_str_flex lo hi (sgn ++ ds) =
      .ok (if sgn = ['-'] then -(digitsToNat ds : Int) else (digitsToNat ds : Int), 1) := by
  have hlo10 : lo ≤ 10 := le_trans hlo (by norm_num)
  have hpv : parse_val lo hi ds = .ok (digitsToNat ds : Int) :=
    parse_val_digits hne hds hlo hmag
  rcases hsgn with rfl | rfl | rfl
  · rw [List.nil_append]
    exact from_str_flex_plain (ratCaptures_digits hne hds) hne hlo10 hhi10 hpv
  · exact from_str_flex_plain (ratCaptures_pos_digits hne hds) hne hlo10 hhi10 hpv
  · exact from_str_flex_plain (ratCaptures_neg_digits hne hds) hne hlo10 hhi10 hpv

/-- Witness for C2 at `"-47"` over the `i32` range. -/
theorem c2_integer_roundtrip_witness :
    from_str_flex lo32 hi32 (['-'] ++ ['4', '7']) = .ok (-47, 1) := by
  have h := c2_integer_roundtrip lo32 hi32 ['-'] ['4', '7'] (by simp)
    (by simp) (by decide) (by decide) (by decide) (by decide)
  simpa [digitsToNat] using h

/-- Claim C10: over a two's-complement signed range (`lo = -hi - 1`), the
string `-` followed by the decimal digits of `hi + 1` — i.e. the string
denoting the minimum value `lo` of the type — is rejected with `Overflow`,
even though the denoted value `-(hi+1) = lo` is representable (the last two
conjuncts).  The unsigned magnitude is converted into `T` first and only
then negated, and `hi + 1` does not fit. -/
theorem c10_min_value_overflow (lo hi : Int) (ds : List Char)
    (h2c : lo = -hi - 1) (hhi10 : (10 : Int) ≤ hi)
    (hne : ds ≠ []) (hds : ds.all isAsciiDigit = true)
    (hval : (digitsToNat ds : Int) = hi + 1) :
    from_str_flex lo hi ('-' :: ds) = .error ⟨.Overflow⟩ ∧
      lo ≤ -(hi + 1) ∧ -(hi + 1) ≤ hi := by
  refine ⟨?_, by omega, by omega⟩
  have hpv : parse_val lo hi ds = .error ⟨.Overflow⟩ :=
    parse_val_digits_overflow hne hds (by omega)
  have hg : (ds.isEmpty && !decimalHasDigits none) = false := by
    cases ds with
    | nil => exact absurd rfl hne
    | cons c t => rfl
  exact from_str_flex_numerator_error (ratCaptures_neg_digits hne hds) hg
    (by omega) hhi10 hpv

/-- Witness for C10 at `"-128"` over the `i8` range. -/
theorem c10_min_value_overflow_witness :
    from_str_flex lo8 hi8 ('-' :: ['1', '2', '8']) = .error ⟨.Overflow⟩ ∧
      lo8 ≤ -(hi8 + 1) ∧ -(hi8 + 1) ≤ hi8 :=
  c10_min_value_overflow lo8 hi8 ['1', '2', '8'] (by decide) (by decide)
    (by simp) (by decide) (by decide)

/-- Claim C9: a grammar match in which both the integer part and the
fractional part are absent is rejected as malformed by the explicit
post-match guard (first conjunct, for any bounds and any such input); the
remaining conjuncts exhibit the listed shapes — a bare `.`, a bare sign, the
empty string, whitespace only — as grammar MATCHES (not regex failures)
that nevertheless produce `ParseError`. -/
theorem c9_missing_digits_guard :
    (∀ (lo hi : Int) (input : List Char) (cap : RatCaptures),
        ratCaptures input = some cap → cap.num = [] →
        (cap.decimal = none ∨ cap.decimal = some []) →
        from_str_flex lo hi input = .error ⟨.ParseError⟩) ∧
    ratCaptures ['.'] = some ⟨[], [], none, some [], none⟩ ∧
    ratCaptures ['-'] = some ⟨['-'], [], none, none, none⟩ ∧
    ratCaptures [] = some ⟨[], [], none, none, none⟩ ∧
    ratCaptures [' '] = some ⟨[], [], none, none, none⟩ ∧
    from_str_flex lo32 hi32 ['.'] = .error ⟨.ParseError⟩ ∧
    from_str_flex lo32 hi32 ['-'] = .error ⟨.ParseError⟩ ∧
    from_str_flex lo32 hi32 [] = .error ⟨.ParseError⟩ ∧
    from_str_flex lo32 hi32 [' '] = .error ⟨.ParseError⟩ := by
  refine ⟨?_, rfl, rfl, rfl, rfl, rfl, rfl, rfl, rfl⟩
  intro lo hi input cap hc hnum hdec
  rw [from_str_flex]
  simp only [hc]
  rw [if_pos]
  rcases hdec with hd | hd <;> simp [hnum, hd, decimalHasDigits]

/-- Witness for C9: the guard applied at the concrete input `"."` over the
`i8` range. -/
theorem c9_missing_digits_guard_witness :
    from_str_flex lo8 hi8 ['.'] = .error ⟨.ParseError⟩ :=
  c9_missing_digits_guard.1 lo8 hi8 ['.'] ⟨[], [], none, some [], none⟩
    rfl rfl (Or.inr rfl)

/-- Claim C1 (failing-input evaluation): the fullwidth digit `１` (U+FF11)
is matched by the Unicode-aware `\d` of `RATIONAL_FORMAT` (second conjunct:
it becomes the `num` capture), after which `T::from_str` rejects it and the
failure is mapped to `Overflow` (lib.rs:174-176) — not `ParseError` as the
spec requires for non-ASCII digit glyphs.  Non-`Nd` digit-like glyphs
(superscript `¹`, fraction `½`) fail the regex instead and are correctly
reported as `ParseError`. -/
theorem c1_fullwidth_digit_wrong_kind :
    from_str_flex lo32 hi32 ['１'] = .error ⟨.Overflow⟩ ∧
    ratCaptures ['１'] = some ⟨[], ['１'], none, none, none⟩ ∧
    from_str_flex lo8 hi8 ['１'] = .error ⟨.Overflow⟩ ∧
    from_str_flex lo32 hi32 ['¹'] = .error ⟨.ParseError⟩ ∧
    from_str_flex lo32 hi32 ['½'] = .error ⟨.ParseError⟩ ∧
    (⟨.Overflow⟩ : ParseRatioError) ≠ ⟨.ParseError⟩ :=
  ⟨rfl, rfl, rfl, rfl, rfl, by decide⟩

/-- Counterexample for C4 as frozen: `"128/0"` is an explicit-fraction input
whose denominator token denotes 0 (second conjunct), yet over the `i8` range
`from_str_flex` fails with `Overflow` (the numerator `128` is converted
before the denominator is even parsed, lib.rs:190-194), not
`ZeroDenominator`. -/
theorem c4_counterexample :
    ratCaptures ['1', '2', '8', '/', '0'] =
      some ⟨[], ['1', '2', '8'], some ['0'], none, none⟩ ∧
    from_str_flex lo8 hi8 ['1', '2', '8', '/', '0'] = .error ⟨.Overflow⟩ ∧
    (⟨.Overflow⟩ : ParseRatioError) ≠ ⟨.ZeroDenominator⟩ :=
  ⟨rfl, rfl, by decide⟩

/-- Claim C4 (amended): provided the numerator token itself converts into
`T` without overflow, an explicit-fraction input whose denominator token
denotes 0 fails with `ZeroDenominator` (first conjunct); and the
`ZeroDenominator` kind only ever arises when the fraction branch matched,
i.e. when the `denom` capture is present (second conjunct). -/
theorem c4_zero_denominator :
    (∀ (lo hi : Int) (input : List Char) (cap : RatCaptures) (dstr : List Char) (n : Int),
        ratCaptures input = some cap → cap.denom = some dstr →
        (cap.num.isEmpty && !decimalHasDigits cap.decimal) = false →
        lo ≤ 10 → (10 : Int) ≤ hi →
        parse_val lo hi cap.num = .ok n →
        parse_val lo hi dstr = .ok 0 →
        from_str_flex lo hi input = .error ⟨.ZeroDenominator⟩) ∧
    (∀ (lo hi : Int) (input : List Char),
        from_str_flex lo hi input = .error ⟨.ZeroDenominator⟩ →
        ∃ cap dstr, ratCaptures input = some cap ∧ cap.denom = some dstr) := by
  constructor
  · intro lo hi input cap dstr n hc hd hguard hlo10 hhi10 hn hdv
    rw [from_str_flex]
    simp only [hc]
    rw [if_neg (by simp [hguard]),
      if_neg (by simp [decide_eq_true hlo10, decide_eq_true hhi10])]
    simp only [hn, hd, hdv]
    rw [signAndCheck, if_pos rfl]
  · intro lo hi input h
    rw [from_str_flex] at h
    cases hc : ratCaptures input with
    | none => simp only [hc] at h; exact absurd h (by simp)
    | some cap =>
      simp only [hc] at h
      split at h
      · exact absurd h (by simp)
      · split at h
        · exact absurd h (by simp)
        · cases hn : parse_val lo hi cap.num with
          | error e =>
            simp only [hn] at h
            rw [parse_val_error hn] at h
            exact absurd h (by simp)
          | ok n0 =>
            simp only [hn] at h
            cases hd : cap.denom with
            | some dstr => exact ⟨cap, dstr, rfl, hd⟩
            | none =>
              simp only [hd] at h
              cases hdp : decimalPart lo hi n0 cap.decimal with
              | error e =>
                simp only [hdp] at h
                rw [decimalPart_error hdp] at h
                exact absurd h (by simp)
              | ok p1 =>
                simp only [hdp] at h
                cases hep : exponentPart lo hi p1.1 p1.2 cap.exp with
                | error e =>
                  simp only [hep] at h
                  rcases exponentPart_error hep with he | he <;>
                    (rw [he] at h; exact absurd h (by simp))
                | ok p2 =>
                  simp only [hep] at h
                  rw [signAndCheck] at h
                  split at h
                  · next hzero =>
                    obtain ⟨m, hm⟩ := decimalPart_ok hdp
                    obtain ⟨k, hk⟩ := exponentPart_ok hep
                    rw [hk, hm] at hzero
                    have hpos : (0 : Int) < 10 ^ m * 10 ^ k :=
                      mul_pos (pow_pos (by norm_num) m) (pow_pos (by norm_num) k)
                    omega
                  · exact absurd h (by simp)

/-- Witness for C4's amended statement at `"1/0"` over the `i32` range. -/
theorem c4_zero_denominator_witness :
    from_str_flex lo32 hi32 ['1', '/', '0'] = .error ⟨.ZeroDenominator⟩ :=
  c4_zero_denominator.1 lo32 hi32 ['1', '/', '0']
    ⟨[], ['1'], some ['0'], none, none⟩ ['0'] 1 rfl rfl rfl (by decide) (by decide)
    rfl rfl

/-- Counterexample for C3 as frozen: `"99999999999e9999999999"` has a
well-formed exponent token `9999999999` that does not fit in an `i32`
(second conjunct), yet over the `i32` range `from_str_flex` fails with
`Overflow`, not `ParseError`: the mantissa `99999999999` overflows `T`
before the exponent is ever parsed (lib.rs:190 runs before lib.rs:242). -/
theorem c3_counterexample :
    ratCaptures (List.replicate 11 '9' ++ 'e' :: List.replicate 10 '9') =
      some ⟨[], List.replicate 11 '9', none, none, some (List.replicate 10 '9')⟩ ∧
    rustFromStrI32 (expFinalOf (List.replicate 10 '9')) = none ∧
    from_str_flex lo32 hi32 (List.replicate 11 '9' ++ 'e' :: List.replicate 10 '9') =
      .error ⟨.Overflow⟩ ∧
    (⟨.Overflow⟩ : ParseRatioError) ≠ ⟨.ParseError⟩ :=
  ⟨rfl, rfl, rfl, by decide⟩

/-- Claim C3 (amended): for an input whose exponent token (after underscore
stripping) fails the `i32` parse, if the mantissa itself was processed
without overflow — the integer part converts into `T` and the fractional
step succeeds — then `from_str_flex` fails with `ParseError`, never
`Overflow`, regardless of the bounds. -/
theorem c3_exponent_parse_error (lo hi : Int) (input : List Char)
    (cap : RatCaptures) (es : List Char) (n0 : Int) (p1 : Int × Int)
    (hc : ratCaptures input = some cap) (hdn : cap.denom = none)
    (he : cap.exp = some es)
    (hbad : rustFromStrI32 (expFinalOf es) = none)
    (hguard : (cap.num.isEmpty && !decimalHasDigits cap.decimal) = false)
    (hlo10 : lo ≤ 10) (hhi10 : (10 : Int) ≤ hi)
    (hn : parse_val lo hi cap.num = .ok n0)
    (hdp : decimalPart lo hi n0 cap.decimal = .ok p1) :
    from_str_flex lo hi input = .error ⟨.ParseError⟩ := by
  rw [from_str_flex]
  simp only [hc]
  rw [if_neg (by simp [hguard]),
    if_neg (by simp [decide_eq_true hlo10, decide_eq_true hhi10])]
  simp only [hn, hdn, hdp, he]
  rw [exponentPart]
  simp only [hbad]

/-- Witness for C3's amended statement at `"1e9999999999"` over the `i32`
range. -/
theorem c3_exponent_parse_error_witness :
    from_str_flex lo32 hi32 ('1' :: 'e' :: List.replicate 10 '9') =
      .error ⟨.ParseError⟩ :=
  c3_exponent_parse_error lo32 hi32 ('1' :: 'e' :: List.replicate 10 '9')
    ⟨[], ['1'], none, none, some (List.replicate 10 '9')⟩
    (List.replicate 10 '9') 1 (1, 1) rfl rfl rfl rfl rfl (by decide) (by decide)
    rfl rfl

/-! ### Denominator-capture well-formedness and value non-negativity -/

theorem matchA_denom {r d : List Char} (h : matchA r = some d) :
    headIsDigit d = true ∧ d ≠ [] := by
  rw [matchA] at h
  cases hdw : r.dropWhile isWs with
  | nil => simp only [hdw] at h; exact absurd h (by simp)
  | cons c r2 =>
    simp only [hdw] at h
    split at h
    · split at h
      · exact absurd h (by simp)
      · next hpe =>
        split at h
        · have hd : (takeTok (r2.dropWhile isWs)).1 = d := Option.some_inj.mp h
          rcases takeTok_head (l := r2.dropWhile isWs) with h0 | h0
          · rw [h0] at hpe; exact absurd rfl hpe
          · rw [hd] at h0
            refine ⟨h0, ?_⟩
            intro hnil
            rw [hd, hnil] at hpe
            exact hpe rfl
        · exact absurd h (by simp)
    · exact absurd h (by simp)

theorem ratCaptures_denom {input : List Char} {cap : RatCaptures}
    (h : ratCaptures input = some cap) {d : List Char} (hd : cap.denom = some d) :
    headIsDigit d = true ∧ d ≠ [] := by
  rw [ratCaptures] at h
  cases hq : parseTail (takeTok (signSplit (input.dropWhile isWs)).2).2 with
  | none => simp only [hq] at h; exact absurd h (by simp)
  | some q =>
    simp only [hq] at h
    have hcap := Option.some_inj.mp h
    have hq1 : q.1 = some d := by rw [← hcap] at hd; exact hd
    rw [parseTail] at hq
    cases hA : matchA (takeTok (signSplit (input.dropWhile isWs)).2).2 with
    | some dd =>
      simp only [hA] at hq
      have hqe : q = (some dd, none, none) := (Option.some_inj.mp hq).symm
      rw [hqe] at hq1
      have : dd = d := by simpa using hq1
      exact this ▸ matchA_denom hA
    | none =>
      simp only [hA] at hq
      split at hq
      · have hqe : q = (none, none, none) := (Option.some_inj.mp hq).symm
        rw [hqe] at hq1
        exact absurd hq1 (by simp)
      · cases hB : matchB (takeTok (signSplit (input.dropWhile isWs)).2).2 with
        | none => simp only [hB] at hq; exact absurd hq (by simp)
        | some qb =>
          simp only [hB] at hq
          have hqe : q = (none, qb.1, qb.2) := (Option.some_inj.mp hq).symm
          rw [hqe] at hq1
          exact absurd hq1 (by simp)

theorem rustFromStr_nonneg {lo hi : Int} {c : Char} {t : List Char} {v : Int}
    (hc : isNd c = true) (h : rustFromStr lo hi (c :: t) = some v) : 0 ≤ v := by
  rw [rustFromStr, rustSignSplit_digit hc] at h
  dsimp only at h
  split at h
  · exact absurd h (by simp)
  · split at h
    · next hfalse => exact absurd hfalse (by simp)
    · split at h
      · have hv := Option.some_inj.mp h
        rw [← hv]
        exact Int.natCast_nonneg _
      · exact absurd h (by simp)

theorem parse_val_nonneg {lo hi : Int} {s : List Char} {v : Int}
    (hh : headIsDigit s = true) (h : parse_val lo hi s = .ok v) : 0 ≤ v := by
  cases s with
  | nil => exact absurd hh (by simp [headIsDigit])
  | cons c t =>
    have hc : isNd c = true := hh
    rw [parse_val] at h
    split at h
    · next he => exact absurd he (by simp)
    · split at h
      · have hcu : (c != '_') = true := by
          have hne : c ≠ '_' := (isNd_ne_chars hc).2.2.1
          simpa [bne_iff_ne] using hne
        rw [List.filter_cons, if_pos hcu] at h
        cases hr : rustFromStr lo hi (c :: t.filter (fun c => c != '_')) with
        | none => rw [hr] at h; exact absurd h (by simp)
        | some w =>
          rw [hr] at h
          have hwv : w = v := by simpa using h
          exact hwv ▸ rustFromStr_nonneg hc hr
      · cases hr : rustFromStr lo hi (c :: t) with
        | none => rw [hr] at h; exact absurd h (by simp)
        | some w =>
          rw [hr] at h
          have hwv : w = v := by simpa using h
          exact hwv ▸ rustFromStr_nonneg hc hr

/-- Claim C5: whenever `from_str_flex` succeeds, the denominator of the pair
it hands to the rational-value constructor is strictly positive; and in the
decimal/exponent case (no `denom` capture) it is a power of ten.  In the
fraction case the denominator token is an unsigned digit run, so its value
is non-negative, and the terminal zero-denominator check excludes 0; in
case B the denominator is `1` scaled by checked powers of ten. -/
theorem c5_positive_denominator :
    ∀ (lo hi : Int) (input : List Char) (n d : Int),
      from_str_flex lo hi input = .ok (n, d) →
      0 < d ∧ (∀ cap : RatCaptures, ratCaptures input = some cap →
        cap.denom = none → ∃ k : Nat, d = 10 ^ k) := by
  intro lo hi input n d h
  rw [from_str_flex] at h
  cases hc : ratCaptures input with
  | none => simp only [hc] at h; exact absurd h (by simp)
  | some cap =>
    simp only [hc] at h
    split at h
    · exact absurd h (by simp)
    · split at h
      · exact absurd h (by simp)
      · cases hn : parse_val lo hi cap.num with
        | error e => simp only [hn] at h; exact absurd h (by simp)
        | ok n0 =>
          simp only [hn] at h
          cases hd : cap.denom with
          | some dstr =>
            simp only [hd] at h
            cases hdv : parse_val lo hi dstr with
            | error e => simp only [hdv] at h; exact absurd h (by simp)
            | ok v =>
              simp only [hdv] at h
              rw [signAndCheck] at h
              split at h
              · exact absurd h (by simp)
              · next hnz =>
                have hinj := (Except.ok.injEq _ _).mp h
                have hdd : d = v := by simpa using (congrArg Prod.snd hinj).symm
                have hhead := ratCaptures_denom hc hd
                have hnn : 0 ≤ v := parse_val_nonneg hhead.1 hdv
                refine ⟨by omega, ?_⟩
                intro cap' hc' hd'
                have hcc : cap = cap' := Option.some_inj.mp hc'
                rw [← hcc, hd] at hd'
                exact absurd hd' (by simp)
          | none =>
            simp only [hd] at h
            cases hdp : decimalPart lo hi n0 cap.decimal with
            | error e => simp only [hdp] at h; exact absurd h (by simp)
            | ok p1 =>
              simp only [hdp] at h
              cases hep : exponentPart lo hi p1.1 p1.2 cap.exp with
              | error e => simp only [hep] at h; exact absurd h (by simp)
              | ok p2 =>
                simp only [hep] at h
                rw [signAndCheck] at h
                split at h
                · exact absurd h (by simp)
                · have hinj := (Except.ok.injEq _ _).mp h
                  have hdd : d = p2.2 := by simpa using (congrArg Prod.snd hinj).symm
                  obtain ⟨m, hm⟩ := decimalPart_ok hdp
                  obtain ⟨k, hk⟩ := exponentPart_ok hep
                  have hpow : d = 10 ^ (m + k) := by rw [hdd, hk, hm, pow_add]
                  exact ⟨hpow ▸ pow_pos (by norm_num) _, fun _ _ _ => ⟨m + k, hpow⟩⟩

/-- Witness for C5 at `"3.14"` over the `i32` range: the parse succeeds with
the pair (314, 100), whose denominator is positive and a power of ten. -/
theorem c5_positive_denominator_witness :
    0 < (100 : Int) ∧ ∃ k : Nat, (100 : Int) = 10 ^ k := by
  have h := c5_positive_denominator lo32 hi32 ['3', '.', '1', '4'] 314 100 rfl
  exact ⟨h.1, h.2 ⟨[], ['3'], none, some ['1', '4'], none⟩ rfl rfl⟩

/-! ### Trailing-zero trimming -/

theorem dropTrailingZeros_append_zeros (dec : List Char) (k : Nat) :
    dropTrailingZeros (dec ++ List.replicate k '0') = dropTrailingZeros dec := by
  rw [dropTrailingZeros, dropTrailingZeros, List.reverse_append]
  congr 1
  have hrep : (List.replicate k '0').reverse = List.replicate k '0' :=
    List.reverse_replicate k '0'
  rw [hrep]
  refine dropWhile_all_append _ ?_
  simp [List.all_eq_true, List.mem_replicate]

theorem decFinalOf_append_zeros (dec : List Char) (k : Nat) :
    decFinalOf (dec ++ List.replicate k '0') = decFinalOf dec := by
  rw [decFinalOf, decFinalOf, dropTrailingZeros_append_zeros]

/-- Claim C6: trailing `0` digits of the fractional part are stripped before
the power-of-ten scale is computed — appending any number of `'0'`s to the
fractional token leaves the whole fractional step unchanged (first
conjunct) — so `from_str_flex("1.0000000000")` over the `i32` range succeeds
with the pair (1, 1) (second conjunct) even though a denominator of `10^10`
would overflow `i32` (third conjunct). -/
theorem c6_trailing_zero_trim :
    (∀ (lo hi n : Int) (dec : List Char) (k : Nat),
        decimalPart lo hi n (some (dec ++ List.replicate k '0')) =
          decimalPart lo hi n (some dec)) ∧
    from_str_flex lo32 hi32 ('1' :: '.' :: List.replicate 10 '0') = .ok (1, 1) ∧
    hi32 < 10 ^ 10 := by
  refine ⟨?_, rfl, by norm_num [hi32]⟩
  intro lo hi n dec k
  simp only [decimalPart, decFinalOf_append_zeros]

/-- Witness for C6's universal conjunct at `"23" ++ "000"`. -/
theorem c6_trailing_zero_trim_witness :
    decimalPart lo32 hi32 1 (some (['2', '3'] ++ List.replicate 3 '0')) =
      decimalPart lo32 hi32 1 (some ['2', '3']) :=
  c6_trailing_zero_trim.1 lo32 hi32 1 ['2', '3'] 3

/-- Claim C7: for scientific-notation inputs, a parsed exponent `ev ≥ 0`
multiplies the numerator by `10^ev` and leaves the denominator unchanged,
while `ev < 0` multiplies the denominator by `10^|ev|` and leaves the
numerator unchanged (each via checked arithmetic); in particular
`from_str_flex("-47e-2")` over the `i32` range yields the pair (-47, 100). -/
theorem c7_exponent_scaling :
    (∀ (lo hi n d : Int) (es : List Char) (ev n2 d2 : Int),
        rustFromStrI32 (expFinalOf es) = some ev →
        exponentPart lo hi n d (some es) = .ok (n2, d2) →
        (0 ≤ ev → n2 = n * 10 ^ ev.natAbs ∧ d2 = d) ∧
        (ev < 0 → n2 = n ∧ d2 = d * 10 ^ ev.natAbs)) ∧
    from_str_flex lo32 hi32 ['-', '4', '7', 'e', '-', '2'] = .ok (-47, 100) :=
  ⟨fun _ _ _ _ _ _ _ _ hev h => exponentPart_detail hev h, rfl⟩

/-- Witness for C7's universal conjunct at exponent token `"-2"` applied to
the state (47, 1) over the `i32` range. -/
theorem c7_exponent_scaling_witness :
    (47 : Int) = 47 ∧ (100 : Int) = 1 * 10 ^ ((-2 : Int)).natAbs :=
  (c7_exponent_scaling.1 lo32 hi32 47 1 ['-', '2'] (-2) 47 100 rfl rfl).2
    (by norm_num)

/-! ### Whitespace-append invariance of the scanner -/

theorem takeWhile_append_not {p : Char → Bool} {w : List Char} (l : List Char)
    (hw : ∀ c ∈ w, p c = false) :
    (l ++ w).takeWhile p = l.takeWhile p ∧
      (l ++ w).dropWhile p = l.dropWhile p ++ w := by
  induction l with
  | nil =>
    simp only [List.nil_append]
    cases w with
    | nil => simp
    | cons c t =>
      have hc : p c = false := hw c (List.mem_cons_self c t)
      constructor
      · rw [List.takeWhile_cons, if_neg (by simp [hc])]
        rfl
      · rw [List.dropWhile_cons, if_neg (by simp [hc])]
        rfl
  | cons a l ih =>
    by_cases ha : p a = true
    · constructor
      · simp [List.takeWhile_cons, ha, ih.1]
      · simp [List.dropWhile_cons, ha, ih.2]
    · have ha' : p a = false := by simpa using ha
      constructor
      · simp [List.takeWhile_cons, ha']
      · simp [List.dropWhile_cons, ha']

theorem length_dropWhile_le (p : Char → Bool) :
    ∀ l : List Char, (l.dropWhile p).length ≤ l.length := by
  intro l
  induction l with
  | nil => simp
  | cons a l ih =>
    rw [List.dropWhile_cons]
    split
    · exact le_trans ih (Nat.le_succ _)
    · exact le_refl _

theorem takeGroupsF_head_ne {f : Nat} {c : Char} {t : List Char} (h : c ≠ '_') :
    takeGroupsF f (c :: t) = ([], c :: t) := by
  cases f with
  | zero => rfl
  | succ f =>
    simp only [takeGroupsF]
    rw [if_neg (by simp [h])]

theorem takeGroupsF_fuel : ∀ (f g : Nat) (l : List Char),
    l.length ≤ f → l.length ≤ g → takeGroupsF f l = takeGroupsF g l := by
  intro f
  induction f with
  | zero =>
    intro g l hf _
    obtain rfl : l = [] := List.length_eq_zero.mp (Nat.le_zero.mp hf)
    rw [takeGroupsF_nil, takeGroupsF_nil]
  | succ f ih =>
    intro g l hf hg
    cases g with
    | zero =>
      obtain rfl : l = [] := List.length_eq_zero.mp (Nat.le_zero.mp hg)
      rw [takeGroupsF_nil, takeGroupsF_nil]
    | succ g' =>
      cases l with
      | nil => rw [takeGroupsF_nil, takeGroupsF_nil]
      | cons c rest =>
        simp only [takeGroupsF]
        by_cases hcond : (decide (c = '_') && headIsDigit rest) = true
        · rw [if_pos hcond, if_pos hcond]
          have hlen : (rest.dropWhile isNd).length ≤ rest.length :=
            length_dropWhile_le _ rest
          have hrest : rest.length + 1 ≤ f + 1 := by simpa using hf
          have hrest' : rest.length + 1 ≤ g' + 1 := by simpa using hg
          rw [ih g' (rest.dropWhile isNd) (by omega) (by omega)]
        · rw [if_neg hcond, if_neg hcond]

theorem headIsDigit_append {rest w : List Char} (hw : w.all isWs = true) :
    headIsDigit (rest ++ w) = headIsDigit rest := by
  cases rest with
  | cons c t => rfl
  | nil =>
    simp only [List.nil_append]
    cases w with
    | nil => rfl
    | cons c t =>
      have hc : isWs c = true := by
        simp only [List.all_cons, Bool.and_eq_true] at hw
        exact hw.1
      exact not_isNd_of_isWs hc

theorem takeGroupsF_append : ∀ (f : Nat) (l w : List Char),
    w.all isWs = true → l.length ≤ f →
    takeGroupsF f (l ++ w) = ((takeGroupsF f l).1, (takeGroupsF f l).2 ++ w) := by
  intro f
  induction f with
  | zero => intro l w _ _; rfl
  | succ f ih =>
    intro l w hw hl
    have hmem : ∀ c ∈ w, isNd c = false := fun c hc =>
      not_isNd_of_isWs (List.all_eq_true.mp hw c hc)
    cases l with
    | nil =>
      simp only [List.nil_append, takeGroupsF_nil]
      cases w with
      | nil => rfl
      | cons c t =>
        have hc : isWs c = true := by
          simp only [List.all_cons, Bool.and_eq_true] at hw
          exact hw.1
        rw [takeGroupsF_head_ne (ws_ne_chars hc).2.2.1]
    | cons c rest =>
      simp only [List.cons_append, takeGroupsF, headIsDigit_append hw]
      by_cases hcond : (decide (c = '_') && headIsDigit rest) = true
      · rw [if_pos hcond, if_pos hcond]
        have h1 := takeWhile_append_not rest hmem
        rw [h1.1, h1.2]
        have hrest : rest.length ≤ f := by simpa using hl
        rw [ih (rest.dropWhile isNd) w hw
          (le_trans (length_dropWhile_le _ rest) hrest)]
      · rw [if_neg hcond, if_neg hcond]
        simp

theorem takeTok_append {l w : List Char} (hw : w.all isWs = true) :
    takeTok (l ++ w) = ((takeTok l).1, (takeTok l).2 ++ w) := by
  have hmem : ∀ c ∈ w, isNd c = false := fun c hc =>
    not_isNd_of_isWs (List.all_eq_true.mp hw c hc)
  have h1 := takeWhile_append_not l hmem
  simp only [takeTok, h1.1, h1.2]
  by_cases he : (l.takeWhile isNd).isEmpty = true
  · rw [if_pos he, if_pos he]
  · rw [if_neg he, if_neg he]
    have h2 := takeGroupsF_append (l.dropWhile isNd ++ w).length
      (l.dropWhile isNd) w hw (by simp)
    rw [h2, takeGroupsF_fuel (l.dropWhile isNd ++ w).length
      (l.dropWhile isNd).length (l.dropWhile isNd) (by simp) (le_refl _)]

theorem signSplit_append {l w : List Char} (hw : w.all isWs = true) :
    signSplit (l ++ w) = ((signSplit l).1, (signSplit l).2 ++ w) := by
  cases l with
  | nil =>
    simp only [List.nil_append]
    cases w with
    | nil => rfl
    | cons c t =>
      have hc : isWs c = true := by
        simp only [List.all_cons, Bool.and_eq_true] at hw
        exact hw.1
      rw [signSplit, if_neg (ws_ne_chars hc).1, if_neg (ws_ne_chars hc).2.1]
      rfl
  | cons c t =>
    simp only [List.cons_append, signSplit]
    by_cases h1 : c = '+'
    · rw [if_pos h1, if_pos h1]
    · rw [if_neg h1, if_neg h1]
      by_cases h2 : c = '-'
      · rw [if_pos h2, if_pos h2]
      · rw [if_neg h2, if_neg h2]
        simp

theorem matchA_append {r w : List Char} (hw : w.all isWs = true) :
    matchA (r ++ w) = matchA r := by
  rw [matchA, matchA]
  cases hdw : r.dropWhile isWs with
  | nil =>
    have hall : r.all isWs = true :=
      List.all_eq_true.mpr (List.dropWhile_eq_nil_iff.mp hdw)
    have h2 : (r ++ w).dropWhile isWs = [] := by
      rw [dropWhile_all_append w hall, dropWhile_all_nil hw]
    rw [h2]
  | cons c r2 =>
    have h2 : (r ++ w).dropWhile isWs = c :: (r2 ++ w) := dropWhile_append_cons w hdw
    simp only [h2]
    by_cases hc : c = '/'
    · rw [if_pos hc, if_pos hc]
      cases hdw2 : r2.dropWhile isWs with
      | nil =>
        have hall2 : r2.all isWs = true :=
          List.all_eq_true.mpr (List.dropWhile_eq_nil_iff.mp hdw2)
        have h3 : (r2 ++ w).dropWhile isWs = [] := by
          rw [dropWhile_all_append w hall2, dropWhile_all_nil hw]
        rw [h3]
      | cons c2 t2 =>
        have h3 : (r2 ++ w).dropWhile isWs = c2 :: (t2 ++ w) :=
          dropWhile_append_cons w hdw2
        rw [h3, ← List.cons_append, takeTok_append hw, List.all_append, hw,
          Bool.and_true]
    · rw [if_neg hc, if_neg hc]

theorem matchExpTail_append {r w : List Char} (dec : Option (List Char))
    (hw : w.all isWs = true) :
    matchExpTail (r ++ w) dec = matchExpTail r dec := by
  cases r with
  | nil =>
    simp only [List.nil_append]
    cases w with
    | nil => rfl
    | cons c t =>
      have hc : isWs c = true := by
        simp only [List.all_cons, Bool.and_eq_true] at hw
        exact hw.1
      rw [matchExpTail,
        if_neg (by simp [(ws_ne_chars hc).2.2.2.2.2.1, (ws_ne_chars hc).2.2.2.2.2.2]),
        if_pos hw]
      rfl
  | cons c t =>
    simp only [List.cons_append, matchExpTail]
    have hall : (c :: (t ++ w)).all isWs = (c :: t).all isWs := by
      rw [List.all_cons, List.all_cons, List.all_append, hw, Bool.and_true]
    by_cases hce : (decide (c = 'e') || decide (c = 'E')) = true
    · rw [if_pos hce, if_pos hce, signSplit_append hw, takeTok_append hw,
        List.all_append, hw, Bool.and_true]
    · rw [if_neg hce, if_neg hce, hall]

theorem matchB_append {r w : List Char} (hw : w.all isWs = true) :
    matchB (r ++ w) = matchB r := by
  cases r with
  | nil =>
    simp only [List.nil_append]
    cases w with
    | nil => rfl
    | cons c t =>
      have hc : isWs c = true := by
        simp only [List.all_cons, Bool.and_eq_true] at hw
        exact hw.1
      rw [matchB, if_neg (ws_ne_chars hc).2.2.2.2.1, matchExpTail,
        if_neg (by simp [(ws_ne_chars hc).2.2.2.2.2.1, (ws_ne_chars hc).2.2.2.2.2.2]),
        if_pos hw]
      rfl
  | cons c t =>
    simp only [List.cons_append, matchB]
    by_cases hcd : c = '.'
    · rw [if_pos hcd, if_pos hcd, takeTok_append hw, matchExpTail_append _ hw]
    · rw [if_neg hcd, if_neg hcd, ← List.cons_append, matchExpTail_append _ hw]

theorem parseTail_append {r w : List Char} (hw : w.all isWs = true) :
    parseTail (r ++ w) = parseTail r := by
  rw [parseTail, parseTail, matchA_append hw]
  cases hA : matchA r with
  | some d => rfl
  | none =>
    have hall : (r ++ w).all isWs = r.all isWs := by
      rw [List.all_append, hw, Bool.and_true]
    simp only [hall, matchB_append hw]

theorem ratCaptures_ws_append {l w : List Char} (hw : w.all isWs = true) :
    ratCaptures (l ++ w) = ratCaptures l := by
  cases hdw : l.dropWhile isWs with
  | nil =>
    have hall : l.all isWs = true :=
      List.all_eq_true.mpr (List.dropWhile_eq_nil_iff.mp hdw)
    have h2 : (l ++ w).dropWhile isWs = [] := by
      rw [dropWhile_all_append w hall, dropWhile_all_nil hw]
    rw [ratCaptures, ratCaptures, h2, hdw]
  | cons c t =>
    have h2 : (l ++ w).dropWhile isWs = c :: (t ++ w) := dropWhile_append_cons w hdw
    rw [ratCaptures, ratCaptures, h2, hdw]
    simp only [← List.cons_append, signSplit_append hw, takeTok_append hw,
      parseTail_append hw]

theorem ratCaptures_ws_prepend {w l : List Char} (hw : w.all isWs = true) :
    ratCaptures (w ++ l) = ratCaptures l := by
  rw [ratCaptures, ratCaptures, dropWhile_all_append l hw]

theorem ratCaptures_fraction_ws {w1 w2 : List Char} (hw1 : w1.all isWs = true)
    (hw2 : w2.all isWs = true) :
    ratCaptures ('3' :: (w1 ++ '/' :: (w2 ++ ['2']))) =
      some ⟨[], ['3'], some ['2'], none, none⟩ := by
  have hheadne : ∀ u X, u.all isWs = true →
      headIsDigit (u ++ '/' :: X) = false ∧
        ∀ c t, u ++ '/' :: X = c :: t → c ≠ '_' := by
    intro u X hu
    cases u with
    | nil =>
      refine ⟨(by decide : isNd '/' = false), ?_⟩
      intro c t hct heq
      have : c = '/' := by
        have := congrArg (fun l => l.head?) hct
        simpa using this.symm
      rw [this] at heq
      exact absurd heq.symm (by decide)
    | cons c0 t0 =>
      have hc0 : isWs c0 = true := by
        simp only [List.all_cons, Bool.and_eq_true] at hu
        exact hu.1
      refine ⟨not_isNd_of_isWs hc0, ?_⟩
      intro c t hct heq
      have : c = c0 := by
        have := congrArg (fun l => l.head?) hct
        simpa using this.symm
      rw [this] at heq
      exact absurd heq ((ws_ne_chars hc0).2.2.1)
  have h0 : ('3' :: (w1 ++ '/' :: (w2 ++ ['2']))).dropWhile isWs =
      '3' :: (w1 ++ '/' :: (w2 ++ ['2'])) := by
    rw [List.dropWhile_cons, if_neg (by decide)]
  have hs : signSplit ('3' :: (w1 ++ '/' :: (w2 ++ ['2']))) =
      ([], '3' :: (w1 ++ '/' :: (w2 ++ ['2']))) := by
    rw [signSplit, if_neg (by decide), if_neg (by decide)]
  obtain ⟨hhd, hne⟩ := hheadne w1 (w2 ++ ['2']) hw1
  have htw : (w1 ++ '/' :: (w2 ++ ['2'])).takeWhile isNd = [] := by
    cases hu : w1 ++ '/' :: (w2 ++ ['2']) with
    | nil => rfl
    | cons c t =>
      have : isNd c = false := by rw [hu] at hhd; exact hhd
      rw [List.takeWhile_cons, if_neg (by simp [this])]
  have hdw : (w1 ++ '/' :: (w2 ++ ['2'])).dropWhile isNd =
      w1 ++ '/' :: (w2 ++ ['2']) := by
    cases hu : w1 ++ '/' :: (w2 ++ ['2']) with
    | nil => rfl
    | cons c t =>
      have : isNd c = false := by rw [hu] at hhd; exact hhd
      rw [List.dropWhile_cons, if_neg (by simp [this])]
  have hgr : takeGroupsF (w1 ++ '/' :: (w2 ++ ['2'])).length
      (w1 ++ '/' :: (w2 ++ ['2'])) = ([], w1 ++ '/' :: (w2 ++ ['2'])) := by
    cases hu : w1 ++ '/' :: (w2 ++ ['2']) with
    | nil => exact takeGroupsF_nil _
    | cons c t => exact takeGroupsF_head_ne (hne c t hu)
  have e1 : ('3' :: (w1 ++ '/' :: (w2 ++ ['2']))).takeWhile isNd = ['3'] := by
    rw [List.takeWhile_cons, if_pos (by decide : isNd '3' = true), htw]
  have e2 : ('3' :: (w1 ++ '/' :: (w2 ++ ['2']))).dropWhile isNd =
      w1 ++ '/' :: (w2 ++ ['2']) := by
    rw [List.dropWhile_cons, if_pos (by decide : isNd '3' = true), hdw]
  have ht : takeTok ('3' :: (w1 ++ '/' :: (w2 ++ ['2']))) =
      (['3'], w1 ++ '/' :: (w2 ++ ['2'])) := by
    simp only [takeTok, e1, e2, hgr]
    rfl
  have hd1 : (w1 ++ '/' :: (w2 ++ ['2'])).dropWhile isWs = '/' :: (w2 ++ ['2']) := by
    rw [dropWhile_all_append _ hw1, List.dropWhile_cons, if_neg (by decide)]
  have hd2 : (w2 ++ ['2']).dropWhile isWs = ['2'] := by
    rw [dropWhile_all_append _ hw2, List.dropWhile_cons, if_neg (by decide)]
  have hma : matchA (w1 ++ '/' :: (w2 ++ ['2'])) = some ['2'] := by
    rw [matchA]
    simp only [hd1]
    rw [if_pos trivial, hd2]
    rfl
  have hpt : parseTail (w1 ++ '/' :: (w2 ++ ['2'])) =
      some (some ['2'], none, none) := by
    rw [parseTail, hma]
  rw [ratCaptures, h0]
  simp only [hs, ht, hpt]

/-- Claim C8: whitespace placement.  Any all-whitespace prefix (first
conjunct) or suffix (second conjunct) of the input leaves the grammar match
and all captures unchanged, so leading/trailing whitespace is accepted
exactly when the trimmed input is; whitespace immediately around the `/` of
an explicit fraction is tolerated (third conjunct, at `3 <ws> / <ws> 2`);
and interior whitespace elsewhere is malformed input — between sign and
digits, before or after the decimal point, and before or after the exponent
marker (remaining conjuncts, mirroring `"3 / 2"` vs `"3.2 e1"`). -/
theorem c8_whitespace_placement :
    (∀ (w l : List Char), w.all isWs = true → ratCaptures (w ++ l) = ratCaptures l) ∧
    (∀ (l w : List Char), w.all isWs = true → ratCaptures (l ++ w) = ratCaptures l) ∧
    (∀ (w1 w2 : List Char), w1.all isWs = true → w2.all isWs = true →
        from_str_flex lo32 hi32 ('3' :: (w1 ++ '/' :: (w2 ++ ['2']))) = .ok (3, 2)) ∧
    from_str_flex lo32 hi32 ['-', ' ', '1'] = .error ⟨.ParseError⟩ ∧
    from_str_flex lo32 hi32 ['3', ' ', '.', '2'] = .error ⟨.ParseError⟩ ∧
    from_str_flex lo32 hi32 ['3', '.', ' ', '2'] = .error ⟨.ParseError⟩ ∧
    from_str_flex lo32 hi32 ['3', '.', '2', ' ', 'e', '1'] = .error ⟨.ParseError⟩ ∧
    from_str_flex lo32 hi32 ['3', '.', '2', 'e', ' ', '1'] = .error ⟨.ParseError⟩ := by
  refine ⟨?_, ?_, ?_, rfl, rfl, rfl, rfl, rfl⟩
  · intro w l hw
    exact ratCaptures_ws_prepend hw
  · intro l w hw
    exact ratCaptures_ws_append hw
  · intro w1 w2 hw1 hw2
    rw [from_str_flex]
    simp only [ratCaptures_fraction_ws hw1 hw2]
    rfl

/-- Witness for C8: a space prefix is dropped (`" 1"` matches like `"1"`),
and `"3 / 2"` — one space on each side of the slash — parses to (3, 2). -/
theorem c8_whitespace_placement_witness :
    ratCaptures ([' '] ++ ['1']) = ratCaptures ['1'] ∧
    from_str_flex lo32 hi32 ('3' :: ([' '] ++ '/' :: ([' '] ++ ['2']))) = .ok (3, 2) :=
  ⟨c8_whitespace_placement.1 [' '] ['1'] (by decide),
   c8_whitespace_placement.2.2.1 [' '] [' '] (by decide) (by decide)⟩
